import Mathlib

/-!
Verification of the Discovery & Ranking Pipeline of the Home-Fur-Good
application (backend routes `dogs.js`, helper `rescueGroups.js`, and the
frontend spotlight / detail components).

Strings are modelled as Lean `String` / `List Char`; JavaScript string
operations (`toLowerCase`, regex replaces, `split`, `trim`, `includes`)
are embedded as executable functions over `List Char`.  `toLowerCase` is
modelled on the ASCII range, which covers every string the breed pipeline
handles.  JavaScript truthiness on optional strings (`undefined`/`""` are
falsy) is modelled by `truthyOpt` / comparisons with `""`.
-/

namespace HFG

/-- ASCII model of JavaScript `String.prototype.toLowerCase` on one character. -/
def lowerChar (c : Char) : Char :=
  if c = 'A' then 'a' else if c = 'B' then 'b' else if c = 'C' then 'c'
  else if c = 'D' then 'd' else if c = 'E' then 'e' else if c = 'F' then 'f'
  else if c = 'G' then 'g' else if c = 'H' then 'h' else if c = 'I' then 'i'
  else if c = 'J' then 'j' else if c = 'K' then 'k' else if c = 'L' then 'l'
  else if c = 'M' then 'm' else if c = 'N' then 'n' else if c = 'O' then 'o'
  else if c = 'P' then 'p' else if c = 'Q' then 'q' else if c = 'R' then 'r'
  else if c = 'S' then 's' else if c = 'T' then 't' else if c = 'U' then 'u'
  else if c = 'V' then 'v' else if c = 'W' then 'w' else if c = 'X' then 'x'
  else if c = 'Y' then 'y' else if c = 'Z' then 'z' else c

/-- Model of `.toLowerCase()` over the character list of a string. -/
def jsLower (l : List Char) : List Char := l.map lowerChar

/-- Model of `.replace(/mix(ed)?/g, "")`: delete every leftmost,
non-overlapping occurrence of `"mixed"` (greedily preferred) or `"mix"`. -/
def removeMix : List Char → List Char
  | 'm' :: 'i' :: 'x' :: 'e' :: 'd' :: rest => removeMix rest
  | 'm' :: 'i' :: 'x' :: rest => removeMix rest
  | c :: rest => c :: removeMix rest
  | [] => []

/-- Model of `.replace(/dog/g, "")`: delete every occurrence of `"dog"`. -/
def removeDog : List Char → List Char
  | 'd' :: 'o' :: 'g' :: rest => removeDog rest
  | c :: rest => c :: removeDog rest
  | [] => []

/-- The characters of the character class `[\/,&()-]` in `normalizeBreed`. -/
def isPunctChar (c : Char) : Bool :=
  c = '/' || c = ',' || c = '&' || c = '(' || c = ')' || c = '-'

/-- Model of `.replace(/[\/,&()-]/g, " ")`. -/
def punctToSpace (l : List Char) : List Char :=
  l.map (fun c => if isPunctChar c then ' ' else c)

/-- Model of the JavaScript `\s` character class (ASCII part). -/
def isWsChar (c : Char) : Bool :=
  c = ' ' || c = '\t' || c = '\n' || c = '\r' || c = '\x0b' || c = '\x0c'

/-- Worker for `collapseWs`; the flag records whether the previously emitted
character was the space that replaced the current whitespace run. -/
def collapseGo : Bool → List Char → List Char
  | _, [] => []
  | prevWs, c :: rest =>
    if isWsChar c then
      if prevWs then collapseGo true rest else ' ' :: collapseGo true rest
    else c :: collapseGo false rest

/-- Model of `.replace(/\s+/g, " ")`: each whitespace run becomes one space. -/
def collapseWs (l : List Char) : List Char := collapseGo false l

/-- Remove trailing whitespace (right half of `.trim()`). -/
def trimEnd : List Char → List Char
  | [] => []
  | c :: rest =>
    match trimEnd rest with
    | [] => if isWsChar c then [] else [c]
    | r => c :: r

/-- Model of `.trim()`: drop leading and trailing whitespace. -/
def jsTrim (l : List Char) : List Char := trimEnd (l.dropWhile isWsChar)

/-- Canonical whitespace form: every whitespace character is a single
space and no two spaces are adjacent; the flag records whether the
previous character was whitespace. -/
def spacedOk : Bool → List Char → Bool
  | _, [] => true
  | prev, c :: r =>
    if isWsChar c then (c = ' ') && !prev && spacedOk true r else spacedOk false r

/-- Does the list start with a non-whitespace character (or is empty)? -/
def headNotWs : List Char → Bool
  | [] => true
  | c :: _ => !isWsChar c

/-- Does the list end with a non-whitespace character (or is empty)? -/
def lastNotWs : List Char → Bool
  | [] => true
  | [c] => !isWsChar c
  | _ :: c :: r => lastNotWs (c :: r)

/-- Character-level body of `normalizeBreed` (backend/routes/dogs.js):
lowercase, delete `mix(ed)?`, delete `dog`, punctuation to spaces,
collapse whitespace runs, trim. -/
def normChars (l : List Char) : List Char :=
  jsTrim (collapseWs (punctToSpace (removeDog (removeMix (jsLower l)))))

/-- Function `normalizeBreed` from backend/routes/dogs.js. -/
def normalizeBreed (s : String) : String := String.mk (normChars s.data)

/-- Model of `xs.startsWith ys` on character lists: does `l` start with `p`? -/
def startsWithL : List Char → List Char → Bool
  | [], _ => true
  | _ :: _, [] => false
  | p :: ps, c :: cs => p = c && startsWithL ps cs

/-- Model of JavaScript `hay.includes(pat)` (substring containment). -/
def containsSub (hay pat : List Char) : Bool :=
  match hay with
  | [] => pat.isEmpty
  | _ :: rest => startsWithL pat hay || containsSub rest pat

/-- Substring containment (`includes`) on `String`s. -/
def strIncludes (hay pat : String) : Bool := containsSub hay.data pat.data

/-- Model of JavaScript `str.split(" ")` (split on single space characters;
`"".split(" ")` is `[""]`). -/
def splitSpace : List Char → List (List Char)
  | [] => [[]]
  | c :: rest =>
    if c = ' ' then [] :: splitSpace rest
    else
      match splitSpace rest with
      | t :: ts => (c :: t) :: ts
      | [] => [[c]]

/-- Function `getBreedTokens` from backend/routes/dogs.js: normalize the selector,
split on spaces, keep tokens of length at least 3. -/
def getBreedTokens (sel : String) : List String :=
  ((splitSpace (normalizeBreed sel).data).map String.mk).filter
    (fun w => 3 ≤ w.length)

/-- The per-dog predicate of the local breed filter in `router.get("/")`
(backend/routes/dogs.js): false when the normalized breed string is empty,
otherwise true when any selected breed token set has a token contained in
the normalized breed string. -/
def dogBreedMatch (tokenSets : List (List String)) (breedString : String) : Bool :=
  let dogNorm := normalizeBreed breedString
  if dogNorm = "" then false
  else tokenSets.any (fun tokens => tokens.any (fun t => strIncludes dogNorm t))

/-- The local breed match of a candidate breed string against a list of
selected breeds, exactly as the search route applies it. -/
def matchesBreed (candidate : String) (selected : List String) : Bool :=
  dogBreedMatch (selected.map getBreedTokens) candidate

/-! ### Spec-side definitions for the normalization claim

`specNormalizeWords` follows the words of the claim about `normalize`:
the stopwords `"mix"`, `"mixed"`, `"dog"` are removed only when they form a
whole word, so `"Bulldog"` is not altered by stopword removal.

`removeOccurs` and `amendedNormalize` follow the amended wording: the
stopwords are removed as substrings wherever they occur, left to right and
non-overlapping, `"mixed"` taking precedence over `"mix"`. -/

/-- Worker for `wordsOf`: split on whitespace runs, accumulating the current
word in reverse. -/
def wordsGo : List Char → List Char → List (List Char)
  | cur, [] => if cur.isEmpty then [] else [cur.reverse]
  | cur, c :: rest =>
    if isWsChar c then
      if cur.isEmpty then wordsGo [] rest else cur.reverse :: wordsGo [] rest
    else wordsGo (c :: cur) rest

/-- The whitespace-delimited words of a character list. -/
def wordsOf (l : List Char) : List (List Char) := wordsGo [] l

/-- The stopwords named by the claim. -/
def specStopWords : List (List Char) :=
  [['m', 'i', 'x'], ['m', 'i', 'x', 'e', 'd'], ['d', 'o', 'g']]

/-- Modelled from the spec claim: remove the stopwords only as whole words,
rejoining the remaining words with single spaces. -/
def removeStopWords (l : List Char) : List Char :=
  List.intercalate [' '] ((wordsOf l).filter (fun w => !(specStopWords.contains w)))

/-- Modelled from the spec claim for `normalize`: lowercase, remove the
stopwords as whole words, punctuation to spaces, collapse whitespace, trim. -/
def specNormalizeWords (s : String) : String :=
  String.mk (jsTrim (collapseWs (punctToSpace (removeStopWords (jsLower s.data)))))

/-- Length of the first alternative (tried in order) that is a nonempty
leading pattern of `l`, if any. -/
def altHit : List (List Char) → List Char → Option Nat
  | [], _ => none
  | p :: ps, l => if !p.isEmpty && startsWithL p l then some p.length else altHit ps l

/-- Remove every leftmost, non-overlapping occurrence of any of the
alternative patterns, alternatives tried in the given order. -/
def removeOccurs (pats : List (List Char)) : List Char → List Char
  | [] => []
  | c :: rest =>
    match altHit pats (c :: rest) with
    | some k => removeOccurs pats (List.drop (k - 1) rest)
    | none => c :: removeOccurs pats rest
termination_by l => l.length
decreasing_by
  · simp only [List.length_cons, List.length_drop]
    omega
  · simp

/-- The amended description of `normalizeBreed`: as the claim, but with the
stopwords removed as substrings wherever they occur. -/
def amendedNormalize (s : String) : String :=
  String.mk (jsTrim (collapseWs (punctToSpace
    (removeOccurs [['d', 'o', 'g']]
      (removeOccurs [['m', 'i', 'x', 'e', 'd'], ['m', 'i', 'x']] (jsLower s.data))))))

/-! ### Ranking engine (frontend/src/pages/Admin.jsx, Welcome.loadSpotlight)

`Array.prototype.sort` with the comparator `(a, b) => a.favoriteCount -
b.favoriteCount` is required to be stable by ECMAScript 2019, and the
comparator induces a total preorder, so the result is exactly a stable
sort by the count; it is modelled by stable insertion sort `sortBySnd`. -/

/-- JavaScript truthiness of an optional string (`undefined`/`null`/`""` are
falsy). -/
def truthyOpt : Option String → Bool
  | none => false
  | some s => !(s = "")

/-- A favorite-count mapping `{ [dogId]: count }`, as an association list in
property order. -/
def Counts := List (String × Nat)

/-- Model of `counts[id] || 0`: the count recorded for `id`, defaulting to 0. -/
def favCountOf (counts : Counts) (id : String) : Nat :=
  ((List.lookup id counts).getD 0)

/-- Stable insertion of one element into a list sorted by the second
component: the new element goes before the first strictly greater key and
before equal keys coming later in the original list is impossible since
insertion proceeds from the right. -/
def insertBySnd {α : Type} (x : α × Nat) : List (α × Nat) → List (α × Nat)
  | [] => [x]
  | y :: ys => if x.2 ≤ y.2 then x :: y :: ys else y :: insertBySnd x ys

/-- Stable sort by the second component, modelling the JavaScript stable
`sort((a, b) => a.count - b.count)`. -/
def sortBySnd {α : Type} : List (α × Nat) → List (α × Nat)
  | [] => []
  | x :: xs => insertBySnd x (sortBySnd xs)

/-- The ranking operation used by the spotlight (`leastFavorited` of the
spec): attach `counts[d.id] || 0` to every candidate, sort ascending by
that count (stably), and keep the first `limit` entries
(`sort` + `slice(0, limit)`). -/
def leastFavoritedBy {α : Type} (getId : α → String) (candidates : List α)
    (counts : Counts) (limit : Nat) : List (α × Nat) :=
  (sortBySnd (candidates.map (fun d => (d, favCountOf counts (getId d))))).take limit

/-- A candidate animal as the ranking claims use it: only the id matters. -/
structure SDog where
  id : String
deriving DecidableEq, Repr

/-- The ranking operation at the candidate type of the claims. -/
def leastFavorited (candidates : List SDog) (counts : Counts) (limit : Nat) :
    List (SDog × Nat) :=
  leastFavoritedBy SDog.id candidates counts limit

/-- Is a list of counted candidates sorted non-decreasing by count? -/
def sortedBySndB {α : Type} : List (α × Nat) → Bool
  | a :: b :: rest => a.2 ≤ b.2 && sortedBySndB (b :: rest)
  | _ => true

/-- Strict lexicographic order on character lists (string comparison). -/
def lexLt : List Char → List Char → Bool
  | [], [] => false
  | [], _ :: _ => true
  | _ :: _, [] => false
  | a :: as, b :: bs => if a < b then true else if b < a then false else lexLt as bs

/-- Do candidates with equal counts appear in ascending id order (adjacent
equal-count entries have non-decreasing ids, by string comparison)? -/
def tiesAscById : List (SDog × Nat) → Bool
  | a :: b :: rest =>
    (if a.2 = b.2 then (lexLt a.1.id.data b.1.id.data || a.1.id = b.1.id) else true)
      && tiesAscById (b :: rest)
  | _ => true

/-! ### Query builder (backend/helpers/rescueGroups.js) -/

/-- The client query parameters `searchAvailableDogs` inspects
(`req.query`); absent parameters are `none`. -/
structure Query where
  zip : Option String := none
  miles : Option Nat := none
  sex : Option String := none
  ageGroup : Option String := none
  sizeGroup : Option String := none
  isDogsOk : Option String := none
  isCatsOk : Option String := none
  isKidsOk : Option String := none
  isHousetrained : Option String := none
  isSpecialNeeds : Option String := none
  isNeedingFoster : Option String := none
  breeds : List String := []

/-- One RescueGroups filter object `{ fieldName, operation, criteria }`. -/
structure RGFilter where
  fieldName : String
  operation : String
  criteria : String
deriving DecidableEq, Repr

/-- A conditionally pushed filter: the push happens only when the condition
is truthy. -/
def optFilter (cond : Bool) (name crit : String) : List RGFilter :=
  if cond then [⟨name, "equal", crit⟩] else []

/-- Function `buildFiltersFromQuery` from backend/helpers/rescueGroups.js: equality
filters for sex / ageGroup / sizeGroup when truthy, `"1"` filters for the
behavior booleans when the query parameter is the string `"true"`; no
breed filter is ever pushed. -/
def buildFiltersFromQuery (q : Query) : List RGFilter :=
  optFilter (truthyOpt q.sex) "animals.sex" (q.sex.getD "")
    ++ optFilter (truthyOpt q.ageGroup) "animals.ageGroup" (q.ageGroup.getD "")
    ++ optFilter (truthyOpt q.sizeGroup) "animals.sizeGroup" (q.sizeGroup.getD "")
    ++ optFilter (q.isDogsOk = some "true") "animals.isDogsOk" "1"
    ++ optFilter (q.isCatsOk = some "true") "animals.isCatsOk" "1"
    ++ optFilter (q.isKidsOk = some "true") "animals.isKidsOk" "1"
    ++ optFilter (q.isHousetrained = some "true") "animals.isHousetrained" "1"
    ++ optFilter (q.isSpecialNeeds = some "true") "animals.isSpecialNeeds" "1"
    ++ optFilter (q.isNeedingFoster = some "true") "animals.isNeedingFoster" "1"

/-- The `{ postalcode, miles }` radius object. -/
structure FilterRadius where
  postalcode : String
  miles : Nat
deriving DecidableEq, Repr

/-- Model of `Number(q.miles) || 50`: absent or zero miles fall back to 50. -/
def effectiveMiles (q : Query) : Nat :=
  match q.miles with
  | none => 50
  | some m => if m = 0 then 50 else m

/-- Function `buildFilterRadius` from backend/helpers/rescueGroups.js: `undefined`
when the zip is falsy, else `{ postalcode: zip, miles }`. -/
def buildFilterRadius (q : Query) : Option FilterRadius :=
  match q.zip with
  | none => none
  | some z => if z = "" then none else some ⟨z, effectiveMiles q⟩

/-- The `data` part of the request body built by `searchAvailableDogs`:
`{ filters, ...(filterRadius ? { filterRadius } : {}) }`. -/
structure RGRequestData where
  filters : List RGFilter
  filterRadius : Option FilterRadius
deriving DecidableEq, Repr

/-- The external search request built from a client query; breed selections
in the query are never consulted here. -/
def searchRequestData (q : Query) : RGRequestData :=
  { filters := buildFiltersFromQuery q, filterRadius := buildFilterRadius q }

/-- The page-size hint: 200 with a breed filter, else 150. -/
def searchApiLimit (q : Query) : Nat := if q.breeds.isEmpty then 150 else 200

/-! ### Search route (backend/routes/dogs.js, `router.get("/")`) -/

/-- Attributes of a raw RescueGroups animal record (the fields the routes
read); absent fields are `none`. -/
structure RGAttrs where
  name : Option String := none
  ageGroup : Option String := none
  sex : Option String := none
  distance : Option Int := none
  pictureThumbnailUrl : Option String := none
  url : Option String := none
  breedString : Option String := none
  descriptionText : Option String := none
  descriptionHtml : Option String := none
deriving DecidableEq, Repr

/-- Attributes of an `included` side-table record. -/
structure RGIncAttrs where
  city : Option String := none
  state : Option String := none
  originalUrl : Option String := none
deriving DecidableEq, Repr

/-- One record of the raw response's `included` side-table. -/
structure RGIncluded where
  type : String
  id : String
  attributes : Option RGIncAttrs := none
deriving DecidableEq, Repr

/-- One raw primary animal record: id, attributes and the location ids of
its `relationships.locations.data`. -/
structure RGAnimal where
  id : String
  attributes : Option RGAttrs := none
  locationIds : List String := []
deriving DecidableEq, Repr

/-- A raw RescueGroups search response: primary records plus the optional
`included` side-table. -/
structure RawSearch where
  data : Option (List RGAnimal) := none
  included : Option (List RGIncluded) := none

/-- Model of `x || null` on an optional string: empty strings also become `null`. -/
def truthyOrNull (o : Option String) : Option String :=
  match o with
  | some s => if s = "" then none else some s
  | none => none

/-- The city/state pair resolved from the first related location id through
the `included` side-table, as both routes do. -/
def lookupCityState (included : Option (List RGIncluded)) (locationIds : List String) :
    Option String × Option String :=
  match locationIds.head? with
  | none => (none, none)
  | some locId =>
    if locId = "" then (none, none)
    else
      match included with
      | none => (none, none)
      | some incs =>
        match incs.find? (fun x => x.type = "locations" && x.id = locId) with
        | none => (none, none)
        | some loc =>
          match loc.attributes with
          | none => (none, none)
          | some la => (truthyOrNull la.city, truthyOrNull la.state)

/-- The clean dog shape the search route returns for each raw record. -/
structure Dog where
  id : String
  name : Option String := none
  ageGroup : Option String := none
  sex : Option String := none
  distance : Option Int := none
  city : Option String := none
  state : Option String := none
  photo : Option String := none
  url : Option String := none
  breedString : String := ""
deriving DecidableEq, Repr

/-- The mapping step of `router.get("/")`: one raw record to one clean dog. -/
def mapDog (included : Option (List RGIncluded)) (a : RGAnimal) : Dog :=
  let attrs := a.attributes.getD {}
  let cs := lookupCityState included a.locationIds
  { id := a.id
    name := truthyOrNull attrs.name
    ageGroup := truthyOrNull attrs.ageGroup
    sex := truthyOrNull attrs.sex
    distance := attrs.distance
    city := cs.1
    state := cs.2
    photo := truthyOrNull attrs.pictureThumbnailUrl
    url := truthyOrNull attrs.url
    breedString := attrs.breedString.getD "" }

/-- The mapped dog list before local breed filtering
(`(data.data || []).map(...)`). -/
def mappedDogs (raw : RawSearch) : List Dog :=
  (raw.data.getD []).map (mapDog raw.included)

/-- The dog list of the search route's response: the mapped list, locally
breed-filtered when at least one breed was selected. -/
def routeDogs (raw : RawSearch) (breedsFilter : List String) : List Dog :=
  let dogs := mappedDogs raw
  if breedsFilter.isEmpty then dogs
  else dogs.filter (fun d => dogBreedMatch (breedsFilter.map getBreedTokens) d.breedString)

/-- The JSON response shape of `router.get("/")`. -/
structure DogsResponse where
  dogs : List Dog
  page : Nat
  total : Nat
  countReturned : Nat
  pages : Nat
deriving DecidableEq, Repr

/-- The full response of the search route. -/
def dogsRouteResponse (raw : RawSearch) (breedsFilter : List String) : DogsResponse :=
  let dogs := routeDogs raw breedsFilter
  { dogs := dogs, page := 1, total := dogs.length,
    countReturned := dogs.length, pages := 1 }

/-! ### Description resolution (detail route + frontend DogDetail) -/

/-- Split a character list at its first `'>'`: `some (before, after)` with
`l = before ++ '>' :: after`, or `none` when `l` has no `'>'`. -/
def breakGt : List Char → Option (List Char × List Char)
  | [] => none
  | '>' :: r => some ([], r)
  | c :: r =>
    match breakGt r with
    | some (b, a) => some (c :: b, a)
    | none => none

/-- Fueled worker for `stripTags`; the fuel is an upper bound on the input
length, so it never runs out. -/
def stripTagsGo : Nat → List Char → List Char
  | 0, l => l
  | _ + 1, [] => []
  | fuel + 1, '<' :: rest =>
    (match breakGt rest with
     | some ([], _) => '<' :: stripTagsGo fuel rest
     | some (_ :: _, after) => stripTagsGo fuel after
     | none => '<' :: rest)
  | fuel + 1, c :: rest => c :: stripTagsGo fuel rest

/-- Model of `.replace(/<[^>]+>/g, "")`: delete every leftmost,
non-overlapping stretch `'<'`, one or more non-`'>'` characters, `'>'`. -/
def stripTags (l : List Char) : List Char := stripTagsGo l.length l

/-- The frontend DogDetail description fallback (frontend/src/pages of the
detail view): keep `descriptionText` when truthy; otherwise, when
`descriptionHtml` is truthy, strip its tags. -/
def resolveDescription (txt html : Option String) : Option String :=
  if truthyOpt txt then txt
  else
    match html with
    | some h => if h = "" then txt else some (String.mk (stripTags h.data))
    | none => txt

/-- The displayed description for a raw detail record: the detail route
sends `descriptionText || null` and `descriptionHtml || null`, and the
frontend applies `resolveDescription` to them. -/
def displayedDescription (attrs : RGAttrs) : Option String :=
  resolveDescription (truthyOrNull attrs.descriptionText) (truthyOrNull attrs.descriptionHtml)

/-! ### Spotlight selection (frontend/src/pages/Admin.jsx, Welcome) -/

/-- The inputs and collaborators of one `loadSpotlight` call: the user's
zipcode, and the outcomes of the three kinds of sub-calls (`searchDogs`,
`getFavoriteCountsPublic`, `getDog`); `Except.error ()` models a rejected
promise. -/
structure SpotEnv where
  zipcode : Option String
  search : Except Unit (List Dog)
  counts : Except Unit Counts
  getDog : String → Except Unit Dog

/-- The sequential detail-fetch loop of the global branch: for each selected
`(dogId, count)` fetch the dog, aborting on the first failure.  Returns the
loop outcome together with the list of dog ids a fetch was issued for. -/
def globalGo (g : String → Except Unit Dog) :
    List (String × Nat) → Except Unit (List (Dog × Nat)) × List String
  | [] => (Except.ok [], [])
  | (i, c) :: rest =>
    match g i with
    | Except.error _ => (Except.error (), [i])
    | Except.ok dog =>
      let r := globalGo g rest
      (match r.1 with
       | Except.ok l => Except.ok ((dog, c) :: l)
       | Except.error e => Except.error e,
       i :: r.2)

/-- The body of `loadSpotlight` up to the `try`/`catch`: the outcome that
would be assigned to the spotlight state, or the first raised error, paired
with the dog ids detail fetches were issued for. -/
def loadSpotlightCore (env : SpotEnv) : Except Unit (List (Dog × Nat)) × List String :=
  if truthyOpt env.zipcode then
    match env.search, env.counts with
    | Except.ok dogs, Except.ok counts =>
      (Except.ok (leastFavoritedBy Dog.id dogs counts 3), [])
    | _, _ => (Except.error (), [])
  else
    match env.counts with
    | Except.error _ => (Except.error (), [])
    | Except.ok counts =>
      if counts.isEmpty then (Except.ok [], [])
      else globalGo env.getDog ((sortBySnd counts).take 3)

/-- Function `loadSpotlight` with its `catch`: any raised error degrades to an empty
spotlight. -/
def loadSpotlight (env : SpotEnv) : List (Dog × Nat) :=
  match (loadSpotlightCore env).1 with
  | Except.ok l => l
  | Except.error _ => []

/-! ## Helper lemmas -/

/-- A list always starts with the pattern it begins with. -/
theorem startsWithL_append_self (p t : List Char) : startsWithL p (p ++ t) = true := by
  induction p with
  | nil => rfl
  | cons a as ih => simp [startsWithL, ih]

/-- A true leading-pattern test decomposes the list. -/
theorem exists_of_startsWithL (p l : List Char) (h : startsWithL p l = true) :
    ∃ t, l = p ++ t := by
  induction p generalizing l with
  | nil => exact ⟨l, rfl⟩
  | cons a as ih =>
    cases l with
    | nil => simp [startsWithL] at h
    | cons c cs =>
      rw [startsWithL, Bool.and_eq_true, decide_eq_true_eq] at h
      obtain ⟨t, ht⟩ := ih cs h.2
      exact ⟨t, by rw [← h.1, ht]; simp⟩

/-- The pattern-matching translation of `.replace(/mix(ed)?/g, "")` agrees
with the generic leftmost-occurrence remover on the alternatives
`"mixed"`, `"mix"`. -/
theorem removeMix_eq_removeOccurs (l : List Char) :
    removeMix l = removeOccurs [['m', 'i', 'x', 'e', 'd'], ['m', 'i', 'x']] l := by
  induction l using removeMix.induct with
  | case1 rest ih =>
    rw [removeMix, removeOccurs]
    simp only [altHit, startsWithL]
    norm_num
    exact ih
  | case2 rest h ih =>
    have hsw : startsWithL ['m', 'i', 'x', 'e', 'd'] ('m' :: 'i' :: 'x' :: rest) = false := by
      cases hb : startsWithL ['m', 'i', 'x', 'e', 'd'] ('m' :: 'i' :: 'x' :: rest) with
      | false => rfl
      | true =>
        obtain ⟨t, ht⟩ := exists_of_startsWithL _ _ hb
        simp only [List.cons_append, List.nil_append, List.cons.injEq] at ht
        exact (h t ht.2.2.2).elim
    have hsw2 : startsWithL ['m', 'i', 'x'] ('m' :: 'i' :: 'x' :: rest) = true :=
      startsWithL_append_self ['m', 'i', 'x'] rest
    rw [removeOccurs, removeMix.eq_2 rest h]
    simp only [altHit, hsw, hsw2]
    norm_num
    exact ih
  | case3 c rest h1 h2 ih =>
    have hsw : startsWithL ['m', 'i', 'x', 'e', 'd'] (c :: rest) = false := by
      cases hb : startsWithL ['m', 'i', 'x', 'e', 'd'] (c :: rest) with
      | false => rfl
      | true =>
        obtain ⟨t, ht⟩ := exists_of_startsWithL _ _ hb
        simp only [List.cons_append, List.nil_append, List.cons.injEq] at ht
        exact (h1 t ht.1 ht.2).elim
    have hsw2 : startsWithL ['m', 'i', 'x'] (c :: rest) = false := by
      cases hb : startsWithL ['m', 'i', 'x'] (c :: rest) with
      | false => rfl
      | true =>
        obtain ⟨t, ht⟩ := exists_of_startsWithL _ _ hb
        simp only [List.cons_append, List.nil_append, List.cons.injEq] at ht
        exact (h2 t ht.1 ht.2).elim
    rw [removeOccurs, removeMix.eq_3 c rest h1 h2]
    simp only [altHit, hsw, hsw2]
    norm_num
    exact ih
  | case4 =>
    rw [removeOccurs, removeMix.eq_4]

/-- The pattern-matching translation of `.replace(/dog/g, "")` agrees with
the generic leftmost-occurrence remover on the single alternative `"dog"`. -/
theorem removeDog_eq_removeOccurs (l : List Char) :
    removeDog l = removeOccurs [['d', 'o', 'g']] l := by
  induction l using removeDog.induct with
  | case1 rest ih =>
    rw [removeDog, removeOccurs]
    simp only [altHit, startsWithL]
    norm_num
    exact ih
  | case2 c rest h ih =>
    have hsw : startsWithL ['d', 'o', 'g'] (c :: rest) = false := by
      cases hb : startsWithL ['d', 'o', 'g'] (c :: rest) with
      | false => rfl
      | true =>
        obtain ⟨t, ht⟩ := exists_of_startsWithL _ _ hb
        simp only [List.cons_append, List.nil_append, List.cons.injEq] at ht
        exact (h t ht.1 ht.2).elim
    rw [removeOccurs, removeDog.eq_2 c rest h]
    simp only [altHit, hsw]
    norm_num
    exact ih
  | case3 =>
    rw [removeOccurs, removeDog.eq_3]

/-- ASCII lowercasing is idempotent. -/
theorem lowerChar_idem (c : Char) : lowerChar (lowerChar c) = lowerChar c := by
  by_cases h1 : c = 'A'
  · subst h1; decide
  by_cases h2 : c = 'B'
  · subst h2; decide
  by_cases h3 : c = 'C'
  · subst h3; decide
  by_cases h4 : c = 'D'
  · subst h4; decide
  by_cases h5 : c = 'E'
  · subst h5; decide
  by_cases h6 : c = 'F'
  · subst h6; decide
  by_cases h7 : c = 'G'
  · subst h7; decide
  by_cases h8 : c = 'H'
  · subst h8; decide
  by_cases h9 : c = 'I'
  · subst h9; decide
  by_cases h10 : c = 'J'
  · subst h10; decide
  by_cases h11 : c = 'K'
  · subst h11; decide
  by_cases h12 : c = 'L'
  · subst h12; decide
  by_cases h13 : c = 'M'
  · subst h13; decide
  by_cases h14 : c = 'N'
  · subst h14; decide
  by_cases h15 : c = 'O'
  · subst h15; decide
  by_cases h16 : c = 'P'
  · subst h16; decide
  by_cases h17 : c = 'Q'
  · subst h17; decide
  by_cases h18 : c = 'R'
  · subst h18; decide
  by_cases h19 : c = 'S'
  · subst h19; decide
  by_cases h20 : c = 'T'
  · subst h20; decide
  by_cases h21 : c = 'U'
  · subst h21; decide
  by_cases h22 : c = 'V'
  · subst h22; decide
  by_cases h23 : c = 'W'
  · subst h23; decide
  by_cases h24 : c = 'X'
  · subst h24; decide
  by_cases h25 : c = 'Y'
  · subst h25; decide
  by_cases h26 : c = 'Z'
  · subst h26; decide
  have hfix : lowerChar c = c := by
    rw [lowerChar]
    simp only [if_neg h1, if_neg h2, if_neg h3, if_neg h4, if_neg h5, if_neg h6, if_neg h7, if_neg h8, if_neg h9, if_neg h10, if_neg h11, if_neg h12, if_neg h13, if_neg h14, if_neg h15, if_neg h16, if_neg h17, if_neg h18, if_neg h19, if_neg h20, if_neg h21, if_neg h22, if_neg h23, if_neg h24, if_neg h25, if_neg h26]
  rw [hfix]
  exact hfix

/-- A map that fixes every element of the list leaves the list unchanged. -/
theorem jsLower_id (l : List Char) (h : ∀ c ∈ l, lowerChar c = c) : jsLower l = l := by
  rw [jsLower]
  have he : l.map lowerChar = l.map id := List.map_congr_left (fun a ha => h a ha)
  rw [he, List.map_id]

/-- Punctuation replacement fixes a list with no punctuation characters. -/
theorem punctToSpace_id (l : List Char) (h : ∀ c ∈ l, isPunctChar c = false) :
    punctToSpace l = l := by
  rw [punctToSpace]
  have he : (l.map fun c => if isPunctChar c then ' ' else c) = l.map id :=
    List.map_congr_left (fun a ha => by simp [h a ha])
  rw [he, List.map_id]

/-- Characters of `removeMix`'s output come from its input. -/
theorem mem_removeMix (c : Char) : ∀ l, c ∈ removeMix l → c ∈ l := by
  intro l
  induction l using removeMix.induct with
  | case1 rest ih =>
    intro hc
    rw [removeMix] at hc
    simp [List.mem_cons, ih hc]
  | case2 rest h ih =>
    intro hc
    rw [removeMix.eq_2 rest h] at hc
    simp [List.mem_cons, ih hc]
  | case3 c2 rest h1 h2 ih =>
    intro hc
    rw [removeMix.eq_3 c2 rest h1 h2] at hc
    rcases List.mem_cons.mp hc with h' | h'
    · simp [h']
    · simp [List.mem_cons, ih h']
  | case4 => intro hc; exact hc

/-- Characters of `removeDog`'s output come from its input. -/
theorem mem_removeDog (c : Char) : ∀ l, c ∈ removeDog l → c ∈ l := by
  intro l
  induction l using removeDog.induct with
  | case1 rest ih =>
    intro hc
    rw [removeDog] at hc
    simp [List.mem_cons, ih hc]
  | case2 c2 rest h ih =>
    intro hc
    rw [removeDog.eq_2 c2 rest h] at hc
    rcases List.mem_cons.mp hc with h' | h'
    · simp [h']
    · simp [List.mem_cons, ih h']
  | case3 => intro hc; exact hc

/-- A character of `punctToSpace`'s output is a space or an input character. -/
theorem mem_punctToSpace (l : List Char) (c : Char) (hc : c ∈ punctToSpace l) :
    c = ' ' ∨ c ∈ l := by
  rw [punctToSpace] at hc
  obtain ⟨a, ha, hfa⟩ := List.mem_map.mp hc
  by_cases hp : isPunctChar a
  · left
    rw [← hfa, if_pos hp]
  · right
    rw [← hfa, if_neg hp]
    exact ha

/-- No character of `punctToSpace`'s output is a punctuation character. -/
theorem noPunct_punctToSpace (l : List Char) (c : Char) (hc : c ∈ punctToSpace l) :
    isPunctChar c = false := by
  rw [punctToSpace] at hc
  obtain ⟨a, ha, hfa⟩ := List.mem_map.mp hc
  by_cases hp : isPunctChar a
  · rw [← hfa, if_pos hp]
    decide
  · rw [← hfa, if_neg hp]
    exact Bool.eq_false_iff.mpr hp

/-- A character of `collapseGo`'s output is a space or an input character. -/
theorem mem_collapseGo (c : Char) : ∀ (l : List Char) (b : Bool),
    c ∈ collapseGo b l → c = ' ' ∨ c ∈ l := by
  intro l
  induction l with
  | nil => intro b hc; simp [collapseGo] at hc
  | cons a t ih =>
    intro b hc
    by_cases hw : isWsChar a
    · cases b with
      | true =>
        rw [show collapseGo true (a :: t) = collapseGo true t from by
          simp [collapseGo, hw]] at hc
        rcases ih true hc with h | h
        · exact Or.inl h
        · exact Or.inr (List.mem_cons_of_mem a h)
      | false =>
        rw [show collapseGo false (a :: t) = ' ' :: collapseGo true t from by
          simp [collapseGo, hw]] at hc
        rcases List.mem_cons.mp hc with h | h
        · exact Or.inl h
        · rcases ih true h with h' | h'
          · exact Or.inl h'
          · exact Or.inr (List.mem_cons_of_mem a h')
    · rw [show collapseGo b (a :: t) = a :: collapseGo false t from by
        simp [collapseGo, hw]] at hc
      rcases List.mem_cons.mp hc with h | h
      · exact Or.inr (h ▸ List.mem_cons_self a t)
      · rcases ih false h with h' | h'
        · exact Or.inl h'
        · exact Or.inr (List.mem_cons_of_mem a h')

/-- Characters of `trimEnd`'s output come from its input. -/
theorem mem_trimEnd (c : Char) : ∀ l, c ∈ trimEnd l → c ∈ l := by
  intro l
  induction l with
  | nil => intro hc; exact hc
  | cons a t ih =>
    intro hc
    rw [trimEnd] at hc
    cases htr : trimEnd t with
    | nil =>
      rw [htr] at hc
      by_cases hw : isWsChar a
      · simp [hw] at hc
      · simp [hw] at hc
        simp [hc]
    | cons r0 rs =>
      rw [htr] at hc
      rcases List.mem_cons.mp hc with h | h
      · simp [h]
      · have hm : c ∈ trimEnd t := by rw [htr]; exact h
        exact List.mem_cons_of_mem a (ih hm)

/-- If a list has no occurrence of `"mix"`, `removeMix` fixes it. -/
theorem removeMix_id : ∀ l, containsSub l ['m', 'i', 'x'] = false → removeMix l = l := by
  intro l
  induction l using removeMix.induct with
  | case1 rest ih =>
    intro h
    exfalso
    have hs : startsWithL ['m', 'i', 'x'] ('m' :: 'i' :: 'x' :: 'e' :: 'd' :: rest) = true := by
      simpa using startsWithL_append_self ['m', 'i', 'x'] ('e' :: 'd' :: rest)
    simp [containsSub, hs] at h
  | case2 rest h2 ih =>
    intro h
    exfalso
    have hs : startsWithL ['m', 'i', 'x'] ('m' :: 'i' :: 'x' :: rest) = true := by
      simpa using startsWithL_append_self ['m', 'i', 'x'] rest
    simp [containsSub, hs] at h
  | case3 c rest hm1 hm2 ih =>
    intro h
    rw [containsSub] at h
    simp only [Bool.or_eq_false_iff] at h
    rw [removeMix.eq_3 c rest hm1 hm2, ih h.2]
  | case4 => intro _; rfl

/-- If a list has no occurrence of `"dog"`, `removeDog` fixes it. -/
theorem removeDog_id : ∀ l, containsSub l ['d', 'o', 'g'] = false → removeDog l = l := by
  intro l
  induction l using removeDog.induct with
  | case1 rest ih =>
    intro h
    exfalso
    have hs : startsWithL ['d', 'o', 'g'] ('d' :: 'o' :: 'g' :: rest) = true := by
      simpa using startsWithL_append_self ['d', 'o', 'g'] rest
    simp [containsSub, hs] at h
  | case2 c rest hd ih =>
    intro h
    rw [containsSub] at h
    simp only [Bool.or_eq_false_iff] at h
    rw [removeDog.eq_2 c rest hd, ih h.2]
  | case3 => intro _; rfl

/-- Whitespace collapsing emits canonical whitespace. -/
theorem spacedOk_collapseGo (l : List Char) : ∀ b, spacedOk b (collapseGo b l) = true := by
  induction l with
  | nil => intro b; rfl
  | cons a t ih =>
    intro b
    by_cases hw : isWsChar a
    · cases b with
      | true =>
        rw [show collapseGo true (a :: t) = collapseGo true t from by
          simp [collapseGo, hw]]
        exact ih true
      | false =>
        rw [show collapseGo false (a :: t) = ' ' :: collapseGo true t from by
          simp [collapseGo, hw]]
        simp [spacedOk, isWsChar]
        exact ih true
    · rw [show collapseGo b (a :: t) = a :: collapseGo false t from by
        simp [collapseGo, hw]]
      simp [spacedOk, hw]
      exact ih false

/-- Whitespace collapsing fixes a list in canonical whitespace form. -/
theorem collapseGo_id (l : List Char) : ∀ b, spacedOk b l = true → collapseGo b l = l := by
  induction l with
  | nil => intro b _; rfl
  | cons a t ih =>
    intro b h
    by_cases hw : isWsChar a
    · rw [spacedOk] at h
      simp only [hw, if_true, if_pos, Bool.and_eq_true, decide_eq_true_eq,
        Bool.not_eq_true'] at h
      obtain ⟨⟨ha, hb⟩, ht⟩ := h
      subst hb
      rw [show collapseGo false (a :: t) = ' ' :: collapseGo true t from by
        simp [collapseGo, hw]]
      rw [ih true ht, ha]
    · rw [spacedOk] at h
      simp only [hw, if_false, if_neg, not_false_iff] at h
      rw [show collapseGo b (a :: t) = a :: collapseGo false t from by
        simp [collapseGo, hw]]
      rw [ih false h]

/-- Dropping leading whitespace preserves canonical whitespace form. -/
theorem spacedOk_dropWhile (l : List Char) :
    ∀ b, spacedOk b l = true → spacedOk false (l.dropWhile isWsChar) = true := by
  induction l with
  | nil => intro b _; rfl
  | cons a t ih =>
    intro b h
    by_cases hw : isWsChar a
    · rw [List.dropWhile_cons, if_pos hw]
      rw [spacedOk] at h
      simp only [hw, if_true, if_pos, Bool.and_eq_true, decide_eq_true_eq,
        Bool.not_eq_true'] at h
      exact ih true h.2
    · rw [List.dropWhile_cons, if_neg hw]
      rw [spacedOk] at h ⊢
      simp only [hw, if_false, if_neg, not_false_iff] at h ⊢
      exact h

/-- Removing trailing whitespace preserves canonical whitespace form. -/
theorem spacedOk_trimEnd (l : List Char) :
    ∀ b, spacedOk b l = true → spacedOk b (trimEnd l) = true := by
  induction l with
  | nil => intro b _; rfl
  | cons a t ih =>
    intro b h
    rw [trimEnd]
    cases htr : trimEnd t with
    | nil =>
      by_cases hw : isWsChar a
      · simp [hw, spacedOk]
      · simp [hw, spacedOk]
    | cons r0 rs =>
      by_cases hw : isWsChar a
      · rw [spacedOk] at h
        simp only [hw, if_true, if_pos, Bool.and_eq_true, decide_eq_true_eq,
          Bool.not_eq_true'] at h
        obtain ⟨⟨ha, hb⟩, ht⟩ := h
        have hx : spacedOk true (trimEnd t) = true := ih true ht
        rw [htr] at hx
        subst hb
        show spacedOk false (a :: r0 :: rs) = true
        rw [spacedOk]
        simp [hw, ha, hx, isWsChar]
      · rw [spacedOk] at h
        simp only [hw, if_false, if_neg, not_false_iff] at h
        have hx : spacedOk false (trimEnd t) = true := ih false h
        rw [htr] at hx
        show spacedOk b (a :: r0 :: rs) = true
        rw [spacedOk]
        simp [hw, hx]

/-- After dropping leading whitespace the head is not whitespace. -/
theorem headNotWs_dropWhile (l : List Char) :
    headNotWs (l.dropWhile isWsChar) = true := by
  induction l with
  | nil => rfl
  | cons a t ih =>
    by_cases hw : isWsChar a
    · rw [List.dropWhile_cons, if_pos hw]
      exact ih
    · rw [List.dropWhile_cons, if_neg hw]
      simp [headNotWs, hw]

/-- Removing trailing whitespace does not create a whitespace head. -/
theorem headNotWs_trimEnd (l : List Char) (h : headNotWs l = true) :
    headNotWs (trimEnd l) = true := by
  cases l with
  | nil => rfl
  | cons a t =>
    rw [trimEnd]
    cases htr : trimEnd t with
    | nil =>
      by_cases hw : isWsChar a
      · simp [hw, headNotWs]
      · simp [hw, headNotWs]
    | cons r0 rs =>
      show headNotWs (a :: r0 :: rs) = true
      rw [headNotWs] at h ⊢
      exact h

/-- After removing trailing whitespace the last character is not
whitespace. -/
theorem lastNotWs_trimEnd (l : List Char) : lastNotWs (trimEnd l) = true := by
  induction l with
  | nil => rfl
  | cons a t ih =>
    rw [trimEnd]
    cases htr : trimEnd t with
    | nil =>
      by_cases hw : isWsChar a
      · simp [hw, lastNotWs]
      · simp [hw, lastNotWs]
    | cons r0 rs =>
      show lastNotWs (a :: r0 :: rs) = true
      rw [lastNotWs, ← htr]
      exact ih

/-- Dropping leading whitespace fixes a list whose head is not whitespace. -/
theorem dropWhile_id_of_headNotWs (l : List Char) (h : headNotWs l = true) :
    l.dropWhile isWsChar = l := by
  cases l with
  | nil => rfl
  | cons a t =>
    rw [headNotWs, Bool.not_eq_true'] at h
    rw [List.dropWhile_cons, h]
    simp

/-- Removing trailing whitespace fixes a list whose last character is not
whitespace. -/
theorem trimEnd_id_of_lastNotWs : ∀ l, lastNotWs l = true → trimEnd l = l := by
  intro l
  induction l with
  | nil => intro _; rfl
  | cons a t ih =>
    intro h
    cases t with
    | nil =>
      rw [lastNotWs, Bool.not_eq_true'] at h
      rw [trimEnd]
      simp [trimEnd, h]
    | cons b t2 =>
      have h' : lastNotWs (b :: t2) = true := by rw [lastNotWs] at h; exact h
      have htr : trimEnd (b :: t2) = b :: t2 := ih h'
      rw [trimEnd, htr]

/-- Trimming fixes a list with non-whitespace ends. -/
theorem jsTrim_id (l : List Char) (h1 : headNotWs l = true)
    (h2 : lastNotWs l = true) : jsTrim l = l := by
  rw [jsTrim, dropWhile_id_of_headNotWs l h1, trimEnd_id_of_lastNotWs l h2]

/-- The normalization output is in canonical whitespace form. -/
theorem spacedOk_normChars (l : List Char) : spacedOk false (normChars l) = true := by
  have h0 := spacedOk_collapseGo (punctToSpace (removeDog (removeMix (jsLower l)))) false
  have h1 := spacedOk_dropWhile _ false h0
  exact spacedOk_trimEnd _ false h1

/-- The normalization output does not start with whitespace. -/
theorem headNotWs_normChars (l : List Char) : headNotWs (normChars l) = true :=
  headNotWs_trimEnd _ (headNotWs_dropWhile _)

/-- The normalization output does not end with whitespace. -/
theorem lastNotWs_normChars (l : List Char) : lastNotWs (normChars l) = true :=
  lastNotWs_trimEnd _

/-- The normalization output has no punctuation characters. -/
theorem noPunct_normChars (l : List Char) (c : Char) (hc : c ∈ normChars l) :
    isPunctChar c = false := by
  have hc1 : c ∈ (collapseGo false
      (punctToSpace (removeDog (removeMix (jsLower l))))).dropWhile isWsChar :=
    mem_trimEnd c _ hc
  have hc2 : c ∈ collapseGo false (punctToSpace (removeDog (removeMix (jsLower l)))) :=
    (List.dropWhile_sublist _).subset hc1
  rcases mem_collapseGo c _ false hc2 with h | h
  · rw [h]
    decide
  · exact noPunct_punctToSpace _ c h

/-- Every character of the normalization output is fixed by lowercasing. -/
theorem lowerFixed_normChars (l : List Char) (c : Char) (hc : c ∈ normChars l) :
    lowerChar c = c := by
  have hc1 : c ∈ (collapseGo false
      (punctToSpace (removeDog (removeMix (jsLower l))))).dropWhile isWsChar :=
    mem_trimEnd c _ hc
  have hc2 : c ∈ collapseGo false (punctToSpace (removeDog (removeMix (jsLower l)))) :=
    (List.dropWhile_sublist _).subset hc1
  rcases mem_collapseGo c _ false hc2 with h | h
  · rw [h]
    decide
  · rcases mem_punctToSpace _ c h with h' | h'
    · rw [h']
      decide
    · have h3 := mem_removeDog c _ h'
      have h4 := mem_removeMix c _ h3
      rw [jsLower] at h4
      obtain ⟨a, _, hfa⟩ := List.mem_map.mp h4
      rw [← hfa]
      exact lowerChar_idem a

/-- Looking up a key that is not among the mapping's keys yields nothing. -/
theorem lookup_eq_none_of_not_mem (counts : Counts) (i : String)
    (h : i ∉ counts.map Prod.fst) : List.lookup i counts = none := by
  induction counts with
  | nil => rfl
  | cons p t ih =>
    simp only [List.map_cons, List.mem_cons] at h
    push_neg at h
    have hb : (i == p.1) = false := beq_eq_false_iff_ne.mpr h.1
    simp [List.lookup, hb, ih h.2]

/-- Stable insertion is a permutation: the result holds the new element and
the old ones. -/
theorem insertBySnd_perm {α : Type} (x : α × Nat) (l : List (α × Nat)) :
    List.Perm (insertBySnd x l) (x :: l) := by
  induction l with
  | nil => exact List.Perm.refl _
  | cons y ys ih =>
    by_cases h : x.2 ≤ y.2
    · simp [insertBySnd, h]
    · simp only [insertBySnd, h, if_neg, not_false_iff]
      exact (ih.cons y).trans (List.Perm.swap x y ys)

/-- The stable sort permutes its input. -/
theorem sortBySnd_perm {α : Type} (l : List (α × Nat)) :
    List.Perm (sortBySnd l) l := by
  induction l with
  | nil => exact List.Perm.refl _
  | cons x xs ih => exact (insertBySnd_perm x (sortBySnd xs)).trans (ih.cons x)

/-- Stable insertion preserves sortedness by the second component. -/
theorem pairwise_insertBySnd {α : Type} (x : α × Nat) (l : List (α × Nat))
    (h : List.Pairwise (fun a b : α × Nat => a.2 ≤ b.2) l) :
    List.Pairwise (fun a b : α × Nat => a.2 ≤ b.2) (insertBySnd x l) := by
  induction l with
  | nil => simp [insertBySnd]
  | cons y ys ih =>
    rw [List.pairwise_cons] at h
    by_cases hxy : x.2 ≤ y.2
    · simp only [insertBySnd, hxy, if_pos]
      rw [List.pairwise_cons]
      refine ⟨fun b hb => ?_, List.pairwise_cons.mpr h⟩
      rcases List.mem_cons.mp hb with hb | hb
      · exact hb ▸ hxy
      · exact le_trans hxy (h.1 b hb)
    · simp only [insertBySnd, hxy, if_neg, not_false_iff]
      rw [List.pairwise_cons]
      refine ⟨fun b hb => ?_, ih h.2⟩
      rcases List.mem_cons.mp ((insertBySnd_perm x ys).mem_iff.mp hb) with hb | hb
      · exact hb ▸ le_of_not_le hxy
      · exact h.1 b hb

/-- The stable sort's output is sorted non-decreasing by the second
component. -/
theorem pairwise_sortBySnd {α : Type} (l : List (α × Nat)) :
    List.Pairwise (fun a b : α × Nat => a.2 ≤ b.2) (sortBySnd l) := by
  induction l with
  | nil => simp [sortBySnd]
  | cons x xs ih => exact pairwise_insertBySnd x (sortBySnd xs) ih

/-- Stability of one insertion, phrased through filtering on one count
value: inserting `x` puts it before every element of equal count. -/
theorem filter_insertBySnd {α : Type} (x : α × Nat) (l : List (α × Nat)) (k : Nat) :
    (insertBySnd x l).filter (fun p => p.2 == k)
      = if x.2 = k then x :: l.filter (fun p => p.2 == k)
        else l.filter (fun p => p.2 == k) := by
  induction l with
  | nil =>
    by_cases hk : x.2 = k
    · have hb : (x.2 == k) = true := beq_iff_eq.mpr hk
      simp [insertBySnd, List.filter, hb, hk]
    · have hb : (x.2 == k) = false := beq_eq_false_iff_ne.mpr hk
      simp [insertBySnd, List.filter, hb, hk]
  | cons y ys ih =>
    by_cases hxy : x.2 ≤ y.2
    · rw [insertBySnd, if_pos hxy]
      by_cases hk : x.2 = k
      · have hb : (x.2 == k) = true := beq_iff_eq.mpr hk
        simp [List.filter, hb, hk]
      · have hb : (x.2 == k) = false := beq_eq_false_iff_ne.mpr hk
        simp [List.filter, hb, hk]
    · rw [insertBySnd, if_neg hxy]
      have hyx : y.2 < x.2 := Nat.lt_of_not_le hxy
      by_cases hk : x.2 = k
      · have hyk : ¬(y.2 = k) := by omega
        have hb : (y.2 == k) = false := beq_eq_false_iff_ne.mpr hyk
        simp [List.filter, hb, ih, hk]
      · by_cases hyk : y.2 = k
        · have hb : (y.2 == k) = true := beq_iff_eq.mpr hyk
          simp [List.filter, hb, ih, hk]
        · have hb : (y.2 == k) = false := beq_eq_false_iff_ne.mpr hyk
          simp [List.filter, hb, ih, hk]

/-- Stability of the whole sort: for each count value, the elements holding
that count appear in the sorted list exactly as they appear in the input. -/
theorem filter_sortBySnd {α : Type} (l : List (α × Nat)) (k : Nat) :
    (sortBySnd l).filter (fun p => p.2 == k) = l.filter (fun p => p.2 == k) := by
  induction l with
  | nil => rfl
  | cons x xs ih =>
    simp only [sortBySnd]
    rw [filter_insertBySnd]
    by_cases hk : x.2 = k
    · have hb : (x.2 == k) = true := beq_iff_eq.mpr hk
      simp [List.filter, hb, hk, ih]
    · have hb : (x.2 == k) = false := beq_eq_false_iff_ne.mpr hk
      simp [List.filter, hb, hk, ih]

/-- The detail-fetch loop only issues fetches for the ids it was given, in
order and stopping at the first failure. -/
theorem globalGo_fetched (g : String → Except Unit Dog) (l : List (String × Nat)) :
    (globalGo g l).2.isPrefixOf (l.map Prod.fst) = true := by
  induction l with
  | nil => rfl
  | cons p rest ih =>
    cases hg : g p.1 with
    | error e => simp [globalGo, hg, List.isPrefixOf]
    | ok dog => simp [globalGo, hg, List.isPrefixOf, ih]

/-- If a fetch of any selected id fails, the whole detail-fetch loop fails. -/
theorem globalGo_error_of_mem (g : String → Except Unit Dog)
    (l : List (String × Nat)) (p : String × Nat) (hp : p ∈ l)
    (he : g p.1 = Except.error ()) : (globalGo g l).1 = Except.error () := by
  induction l with
  | nil => cases hp
  | cons q rest ih =>
    cases hg : g q.1 with
    | error e => simp [globalGo, hg]
    | ok dog =>
      rcases List.mem_cons.mp hp with hq | hq
      · rw [hq] at he
        rw [he] at hg
        cases hg
      · have := ih hq
        simp only [globalGo, hg]
        rw [this]

/-- A conditionally pushed filter whose field name is free of `"breed"`
keeps the whole chunk free of breed filters. -/
theorem optFilter_breedFree (c : Bool) (name crit : String)
    (h : strIncludes name "breed" = false) :
    (optFilter c name crit).all (fun f => !(strIncludes f.fieldName "breed")) = true := by
  cases c <;> simp [optFilter, h]

/-! ## Claims -/

/-- Claim C1: for every breed selector `s` and candidate breed string `c`,
the local breed match of `c` against the single-selector list `[s]` is true
iff `normalize(c)` is non-empty and at least one token of `tokensFor(s)` is
a substring of `normalize(c)`; in particular
`matches("Labrador Retriever Mix", ["German Shepherd Dog"])` is false and
`matches("German Shepherd / Husky Mix", ["German Shepherd Dog"])` is true. -/
theorem claim_C1 (s c : String) :
    (matchesBreed c [s] = true ↔
      normalizeBreed c ≠ "" ∧ ∃ t ∈ getBreedTokens s, strIncludes (normalizeBreed c) t = true)
    ∧ matchesBreed "Labrador Retriever Mix" ["German Shepherd Dog"] = false
    ∧ matchesBreed "German Shepherd / Husky Mix" ["German Shepherd Dog"] = true := by
  refine ⟨?_, by decide, by decide⟩
  by_cases h : normalizeBreed c = ""
  · simp [matchesBreed, dogBreedMatch, h]
  · simp [matchesBreed, dogBreedMatch, h, List.any_eq_true]

/-- Claim C3, counterexample: `normalize` does not remove the stopwords
only as whole words: on `"Bulldog"` the code yields `"bull"`, while the
claimed word-level pipeline (which leaves `"Bulldog"` alone) yields
`"bulldog"`. -/
theorem claim_C3_counterexample :
    normalizeBreed "Bulldog" = "bull"
    ∧ specNormalizeWords "Bulldog" = "bulldog"
    ∧ normalizeBreed "Bulldog" ≠ specNormalizeWords "Bulldog" := by
  exact ⟨by decide, by decide, by decide⟩

/-- Claim C3, amended: for every input string, `normalize` equals the
pipeline that lowercases, removes every occurrence of `"mixed"`/`"mix"`
and then of `"dog"` as substrings wherever they occur (left to right,
non-overlapping, `"mixed"` before `"mix"`; so `"Bulldog"` becomes
`"bull"`), replaces each of `/ , & ( ) -` with a space, collapses
whitespace runs to single spaces, and trims. -/
theorem claim_C3 (s : String) : normalizeBreed s = amendedNormalize s := by
  simp only [normalizeBreed, amendedNormalize, normChars,
    removeMix_eq_removeOccurs, removeDog_eq_removeOccurs]

/-- Claim C4, counterexample: `normalize` is not idempotent:
`normalize("mmixix")` is `"mix"` (the deletion of the inner `"mix"` splices
a new one together), and normalizing again gives `""`. -/
theorem claim_C4_counterexample :
    normalizeBreed "mmixix" = "mix"
    ∧ normalizeBreed (normalizeBreed "mmixix") = ""
    ∧ normalizeBreed (normalizeBreed "mmixix") ≠ normalizeBreed "mmixix" := by
  exact ⟨by decide, by decide, by decide⟩

/-- Claim C4, amended: `normalize` is idempotent on every input whose
normalization contains no residual occurrence of `"mix"` or `"dog"`
(deleting a stopword can splice a new occurrence together, and only then
does a second pass change anything). -/
theorem claim_C4 (x : String)
    (h1 : strIncludes (normalizeBreed x) "mix" = false)
    (h2 : strIncludes (normalizeBreed x) "dog" = false) :
    normalizeBreed (normalizeBreed x) = normalizeBreed x := by
  have hy1 : containsSub (normChars x.data) ['m', 'i', 'x'] = false := h1
  have hy2 : containsSub (normChars x.data) ['d', 'o', 'g'] = false := h2
  show String.mk (normChars (normChars x.data)) = String.mk (normChars x.data)
  congr 1
  set y := normChars x.data with hy
  have e1 : jsLower y = y := jsLower_id y (fun c hc => lowerFixed_normChars x.data c hc)
  have e2 : removeMix y = y := removeMix_id y hy1
  have e3 : removeDog y = y := removeDog_id y hy2
  have e4 : punctToSpace y = y := punctToSpace_id y (fun c hc => noPunct_normChars x.data c hc)
  have e5 : collapseWs y = y := collapseGo_id y false (spacedOk_normChars x.data)
  have e6 : jsTrim y = y := jsTrim_id y (headNotWs_normChars x.data) (lastNotWs_normChars x.data)
  calc normChars y = jsTrim (collapseWs (punctToSpace (removeDog (removeMix (jsLower y))))) := rfl
    _ = y := by rw [e1, e2, e3, e4, e5, e6]

/-- Claim C4, witness: `"Labrador Retriever Mix"` normalizes to
`"labrador retriever"`, which contains no residual stopword, and a second
normalization fixes it. -/
theorem claim_C4_witness :
    strIncludes (normalizeBreed "Labrador Retriever Mix") "mix" = false
    ∧ strIncludes (normalizeBreed "Labrador Retriever Mix") "dog" = false
    ∧ normalizeBreed (normalizeBreed "Labrador Retriever Mix")
        = normalizeBreed "Labrador Retriever Mix" :=
  ⟨by decide, by decide, claim_C4 "Labrador Retriever Mix" (by decide) (by decide)⟩

/-- Claim C5: for every query, the built external request carries a radius
filter object iff a (truthy) postal code is present, and its filter list
never contains a breed filter — whether or not breeds are selected. -/
theorem claim_C5 (q : Query) :
    ((searchRequestData q).filterRadius ≠ none ↔ truthyOpt q.zip = true)
    ∧ (searchRequestData q).filters.all
        (fun f => !(strIncludes f.fieldName "breed")) = true := by
  constructor
  · cases hz : q.zip with
    | none => simp [searchRequestData, buildFilterRadius, hz, truthyOpt]
    | some z =>
      by_cases hz2 : z = "" <;>
        simp [searchRequestData, buildFilterRadius, hz, hz2, truthyOpt]
  · simp only [searchRequestData, buildFiltersFromQuery, List.all_append, Bool.and_eq_true]
    exact ⟨⟨⟨⟨⟨⟨⟨⟨optFilter_breedFree _ _ _ (by decide),
      optFilter_breedFree _ _ _ (by decide)⟩,
      optFilter_breedFree _ _ _ (by decide)⟩,
      optFilter_breedFree _ _ _ (by decide)⟩,
      optFilter_breedFree _ _ _ (by decide)⟩,
      optFilter_breedFree _ _ _ (by decide)⟩,
      optFilter_breedFree _ _ _ (by decide)⟩,
      optFilter_breedFree _ _ _ (by decide)⟩,
      optFilter_breedFree _ _ _ (by decide)⟩

/-- Claim C6: the ranking operation treats a candidate whose id is absent
from the favorite-count mapping as having count 0, and ranking
`[{id:"a"}, {id:"b"}]` with counts `{a: 5}` and limit 1 returns exactly the
`"b"` candidate (with count 0). -/
theorem claim_C6 :
    (∀ (counts : Counts) (i : String), i ∉ counts.map Prod.fst → favCountOf counts i = 0)
    ∧ leastFavorited [⟨"a"⟩, ⟨"b"⟩] [("a", 5)] 1 = [(⟨"b"⟩, 0)] := by
  refine ⟨fun counts i h => ?_, by decide⟩
  simp [favCountOf, lookup_eq_none_of_not_mem counts i h]

/-- Claim C2, counterexample: ranking the candidates `[{id:"b"}, {id:"a"}]`
with an empty count mapping (both counts 0) keeps the insertion order
`b, a`, so candidates with equal counts do not appear in ascending id
order as the claim states. -/
theorem claim_C2_counterexample :
    leastFavorited [⟨"b"⟩, ⟨"a"⟩] [] 3 = [(⟨"b"⟩, 0), (⟨"a"⟩, 0)]
    ∧ tiesAscById (leastFavorited [⟨"b"⟩, ⟨"a"⟩] [] 3) = false := by
  exact ⟨by decide, by decide⟩

/-- Claim C2, amended: for every candidate list, count mapping and limit,
the ranking operation returns a list sorted non-decreasing by count, in
which candidates with equal counts appear in their original candidate-list
order (the sort is stable; ties are not re-ordered by id), and whose
length is `min(limit, number of candidates)`. -/
theorem claim_C2_amended {α : Type} (getId : α → String) (candidates : List α)
    (counts : Counts) (limit : Nat) :
    List.Pairwise (fun a b : α × Nat => a.2 ≤ b.2)
      (leastFavoritedBy getId candidates counts limit)
    ∧ (∀ k : Nat,
        (sortBySnd (candidates.map (fun d => (d, favCountOf counts (getId d))))).filter
            (fun p => p.2 == k)
          = (candidates.map (fun d => (d, favCountOf counts (getId d)))).filter
            (fun p => p.2 == k))
    ∧ (leastFavoritedBy getId candidates counts limit).length
        = min limit candidates.length := by
  refine ⟨?_, fun k => filter_sortBySnd _ k, ?_⟩
  · exact (pairwise_sortBySnd _).sublist (List.take_sublist _ _)
  · simp only [leastFavoritedBy, List.length_take,
      (sortBySnd_perm _).length_eq, List.length_map]

/-- Claim C7: spotlight selection never raises: a raised error inside the
body always degrades to the empty spotlight, and every sub-call failure
(search or counts in the located branch, counts or any issued detail fetch
in the global branch) makes the body raise. -/
theorem claim_C7 (env : SpotEnv) :
    ((loadSpotlightCore env).1 = Except.error () → loadSpotlight env = [])
    ∧ (truthyOpt env.zipcode = true → env.search = Except.error () →
        (loadSpotlightCore env).1 = Except.error ())
    ∧ (truthyOpt env.zipcode = true → env.counts = Except.error () →
        (loadSpotlightCore env).1 = Except.error ())
    ∧ (truthyOpt env.zipcode = false → env.counts = Except.error () →
        (loadSpotlightCore env).1 = Except.error ())
    ∧ (∀ (cs : Counts) (p : String × Nat), truthyOpt env.zipcode = false →
        env.counts = Except.ok cs → p ∈ (sortBySnd cs).take 3 →
        env.getDog p.1 = Except.error () →
        (loadSpotlightCore env).1 = Except.error ()) := by
  refine ⟨fun h => ?_, fun hz hs => ?_, fun hz hc => ?_, fun hz hc => ?_,
    fun cs p hz hc hp hg => ?_⟩
  · simp [loadSpotlight, h]
  · cases hc : env.counts <;> simp [loadSpotlightCore, hz, hs, hc]
  · cases hs : env.search <;> simp [loadSpotlightCore, hz, hc, hs]
  · simp [loadSpotlightCore, hz, hc]
  · cases cs with
    | nil => simp [sortBySnd] at hp
    | cons w ws =>
      simp only [loadSpotlightCore, hz, Bool.false_eq_true, if_neg, hc,
        List.isEmpty_cons, not_false_iff]
      exact globalGo_error_of_mem env.getDog _ p hp hg

/-- Claim C7, witness: a concrete failing sub-call (global branch, failing
favorite-count fetch) yields the empty spotlight. -/
theorem claim_C7_witness :
    loadSpotlight
      { zipcode := none, search := Except.ok [], counts := Except.error (),
        getDog := fun _ => Except.error () } = [] := by
  have h := claim_C7
    { zipcode := none, search := Except.ok [], counts := Except.error (),
      getDog := fun _ => Except.error () }
  exact h.1 (h.2.2.2.1 rfl rfl)

/-- Claim C8: in the global branch (no zipcode), an empty favorite-count
mapping yields an empty result and no detail fetch; the ranked candidates
are exactly the ids present in the mapping (a permutation of its keys);
and detail fetches are issued only for the selected top-3 ids (the issued
ids are an in-order initial segment of them). -/
theorem claim_C8 (cs : Counts) (sr : Except Unit (List Dog))
    (g : String → Except Unit Dog) :
    (cs = [] → loadSpotlightCore ⟨none, sr, Except.ok cs, g⟩ = (Except.ok [], []))
    ∧ List.Perm ((sortBySnd cs).map Prod.fst) (cs.map Prod.fst)
    ∧ (loadSpotlightCore ⟨none, sr, Except.ok cs, g⟩).2.isPrefixOf
        (((sortBySnd cs).take 3).map Prod.fst) = true := by
  refine ⟨fun h => ?_, (sortBySnd_perm cs).map Prod.fst, ?_⟩
  · simp [loadSpotlightCore, truthyOpt, h]
  · cases cs with
    | nil => simp [loadSpotlightCore, truthyOpt, sortBySnd]
    | cons w ws =>
      simp only [loadSpotlightCore, truthyOpt, Bool.false_eq_true, if_neg,
        List.isEmpty_cons, not_false_iff]
      exact globalGo_fetched g _

/-- Claim C8, witness: with the empty mapping the global spotlight body
returns the empty list and issues no detail fetch. -/
theorem claim_C8_witness :
    loadSpotlightCore ⟨none, Except.ok [], Except.ok [], fun _ => Except.error ()⟩
      = (Except.ok [], []) :=
  (claim_C8 [] (Except.ok []) (fun _ => Except.error ())).1 rfl

/-- Claim C9: detail normalization prefers the plain-text description; when
it is absent (falsy) but an HTML description is present, the displayed
description is the HTML with tags stripped; a raw record lacking
`descriptionText` but carrying `descriptionHtml = "<p>Hi</p>"` resolves to
`"Hi"`. -/
theorem claim_C9 :
    (∀ (txt html : Option String), truthyOpt txt = true → resolveDescription txt html = txt)
    ∧ (∀ h : String, h ≠ "" →
        resolveDescription none (some h) = some (String.mk (stripTags h.data)))
    ∧ displayedDescription { descriptionHtml := some "<p>Hi</p>" } = some "Hi" := by
  refine ⟨fun txt html ht => ?_, fun h hh => ?_, by decide⟩
  · simp [resolveDescription, ht]
  · simp [resolveDescription, truthyOpt, hh]

/-- Claim C10: the search route's dog list is a subsequence (in order,
without duplication or addition) of the mapped raw records; with an empty
breeds filter nothing is removed; and the response's `total` and
`countReturned` both equal the length of the returned list. -/
theorem claim_C10 (raw : RawSearch) (breedsFilter : List String) :
    List.Sublist (routeDogs raw breedsFilter) (mappedDogs raw)
    ∧ (breedsFilter = [] → routeDogs raw breedsFilter = mappedDogs raw)
    ∧ (dogsRouteResponse raw breedsFilter).total = (routeDogs raw breedsFilter).length
    ∧ (dogsRouteResponse raw breedsFilter).countReturned
        = (routeDogs raw breedsFilter).length := by
  refine ⟨?_, fun h => ?_, rfl, rfl⟩
  · by_cases hb : breedsFilter.isEmpty
    · simp [routeDogs, hb]
    · simp only [routeDogs, hb, if_neg]
      exact List.filter_sublist _
  · simp [routeDogs, h]

end HFG
